import Mathlib

/-!
# tesladeliverydate: the login form scraper, the delivery-date extraction and the monitor loop

A shallow embedding of `main.go`.

* Go strings that are sliced or measured (`bodyString`) are byte lists.
* Strings that are only compared for equality (tag names, attribute keys and values,
  error messages) are Lean strings.
* A Go `map[string]string` is an association list with unique keys (`StrMap`).
* The network (`client.Do`), the HTML parser (`html.Parse`) and the timers are inputs.
-/

namespace TeslaDeliveryDate

set_option maxRecDepth 100000

/-! ## Go strings and the `strings` functions the program calls -/

/-- A Go string: a sequence of bytes. -/
abbrev Bytes := List UInt8

/-- The bytes (UTF-8) of a string literal of the source. -/
def bytes (s : String) : Bytes := s.toUTF8.data.toList

/-- The quote character, the separator of `strings.Split(dateWithSuffix, "\"")`. -/
def quote : UInt8 := 34

/-- The position of the first instance of `substr` in `s`, if there is one. -/
def indexNat (s substr : Bytes) : Option Nat :=
  if substr.isPrefixOf s then some 0
  else match s with
    | [] => none
    | _ :: t => (indexNat t substr).map (· + 1)

/-- Go `strings.Index`: the index of the first instance of `substr` in `s`, or `-1`. -/
def Index (s substr : Bytes) : Int :=
  match indexNat s substr with
  | some i => (i : Int)
  | none => -1

/-- Go `strings.Contains`, which is `Index(s, substr) >= 0`. -/
def Contains (s substr : Bytes) : Bool := decide (Index s substr ≥ 0)

/-- Go `strings.Split` for a separator of one byte (the program only splits on the quote):
the pieces of `s` between the separators, one more piece than there are separators. -/
def Split (sep : UInt8) : Bytes → List Bytes
  | [] => [[]]
  | b :: t =>
    if b = sep then [] :: Split sep t
    else match Split sep t with
      | seg :: segs => (b :: seg) :: segs
      | [] => [[b]]

/-- A Go call either returns or panics (here: an index out of range). -/
inductive Outcome (α : Type) where
  | returned (a : α)
  | panicked
  deriving DecidableEq, Repr

/-! ## Go maps -/

/-- A `map[string]string`: an association list in which no key occurs twice. -/
abbrev StrMap := List (String × String)

/-- The assignment `m[k] = v`. -/
def StrMap.set (m : StrMap) (k v : String) : StrMap :=
  (k, v) :: m.filter (fun p => p.1 != k)

/-- The read `m[k]`, the empty string when `k` is not a key. -/
def StrMap.get (m : StrMap) (k : String) : String :=
  match m.lookup k with
  | some v => v
  | none => ""

/-! ## The HTML node tree of `golang.org/x/net/html` -/

/-- The `html.NodeType` of a node. -/
inductive NodeType where
  | ErrorNode | TextNode | DocumentNode | ElementNode | CommentNode | DoctypeNode | RawNode
  deriving DecidableEq, Repr

/-- An `html.Attribute`. -/
structure Attribute where
  Namespace : String
  Key : String
  Val : String
  deriving DecidableEq, Repr

/-- An `html.Node` with the fields the program reads; `children` is the chain
`FirstChild`, `NextSibling`, ... -/
inductive Node where
  | mk (Type_ : NodeType) (Data : String) (Attr : List Attribute) (children : List Node)

/-- The field `n.Type`. -/
def Node.Type_ : Node → NodeType
  | .mk ty _ _ _ => ty

/-- The field `n.Data`. -/
def Node.Data : Node → String
  | .mk _ data _ _ => data

/-- The field `n.Attr`. -/
def Node.Attr : Node → List Attribute
  | .mk _ _ attr _ => attr

/-- The children of `n`, in order. -/
def Node.children : Node → List Node
  | .mk _ _ _ cs => cs

/-! ## `unpackAttrs` and the traversal `f` of `login` -/

/-- The function `unpackAttrs`: the attributes as a map, a later attribute overwriting an
earlier one with the same key. -/
def unpackAttrs (attrs : List Attribute) : StrMap :=
  attrs.foldl (fun attrMap a => attrMap.set a.Key a.Val) []

/-- The loop over `n.Attr` in `f`: the value of the last attribute with key `id`, the empty
string when there is none. -/
def formId (attrs : List Attribute) : String :=
  attrs.foldl (fun id a => if a.Key = "id" then a.Val else id) ""

/-- The `if n.Data == "input"` block of `f`. -/
def inputStep (data : String) (attr : List Attribute) (hiddenFields : StrMap) : StrMap :=
  if data = "input" then
    let attrMap := unpackAttrs attr
    if attrMap.get "type" = "hidden" then
      hiddenFields.set (attrMap.get "name") (attrMap.get "value")
    else hiddenFields
  else hiddenFields

mutual
/-- The closure `f` of `login`, with the captured map `hiddenFields` threaded through. -/
def f (n : Node) (hiddenFields : StrMap) : StrMap :=
  match n with
  | .mk ty data attr children =>
    if ty = NodeType.ElementNode then
      if data = "form" then
        if formId attr ≠ "form" then hiddenFields
        else fChildren children (inputStep data attr hiddenFields)
      else fChildren children (inputStep data attr hiddenFields)
    else fChildren children hiddenFields
/-- The loop `for c := n.FirstChild; c != nil; c = c.NextSibling` of `f`. -/
def fChildren (cs : List Node) (hiddenFields : StrMap) : StrMap :=
  match cs with
  | [] => hiddenFields
  | c :: rest => fChildren rest (f c hiddenFields)
end

/-! ## Vocabulary for the claims about the traversal -/

/-- A form element whose id is `form`. -/
def Node.matchingForm (n : Node) : Bool :=
  decide (n.Type_ = NodeType.ElementNode ∧ n.Data = "form" ∧ formId n.Attr = "form")

/-- A form element whose id is not `form` (also one without an id). -/
def Node.nonMatchingForm (n : Node) : Bool :=
  decide (n.Type_ = NodeType.ElementNode ∧ n.Data = "form" ∧ formId n.Attr ≠ "form")

/-- A form element. -/
def Node.isForm (n : Node) : Bool :=
  decide (n.Type_ = NodeType.ElementNode ∧ n.Data = "form")

/-- An input element of type `hidden`. -/
def Node.hiddenInput (n : Node) : Bool :=
  decide (n.Type_ = NodeType.ElementNode ∧ n.Data = "input" ∧
    (unpackAttrs n.Attr).get "type" = "hidden")

/-- The name/value pair of an input element. -/
def Node.pair (n : Node) : String × String :=
  ((unpackAttrs n.Attr).get "name", (unpackAttrs n.Attr).get "value")

mutual
/-- Every node of the subtree of `n` in document order, each with its ancestors, the
nearest first; `anc` are the ancestors of `n` itself. -/
def withAncestors (anc : List Node) (n : Node) : List (List Node × Node) :=
  match n with
  | .mk ty data attr children =>
    (anc, Node.mk ty data attr children) ::
      withAncestorsList (Node.mk ty data attr children :: anc) children
/-- The nodes of the subtrees of the siblings `cs`, whose ancestors are `anc`. -/
def withAncestorsList (anc : List Node) (cs : List Node) : List (List Node × Node) :=
  match cs with
  | [] => []
  | c :: rest => withAncestors anc c ++ withAncestorsList anc rest
end

/-- The nodes of the subtree of `n` (with `n`), in document order. -/
def subtree (n : Node) : List Node := (withAncestors [] n).map Prod.snd

/-- The hidden input elements of the subtree of `n`, in document order. -/
def hiddenInputsIn (n : Node) : List Node := (subtree n).filter Node.hiddenInput

/-- The hidden input elements of the tree `doc` that have no non-matching form among
their ancestors, in document order. -/
def unshadowedInputs (doc : Node) : List Node :=
  ((withAncestors [] doc).filter
    (fun e => e.2.hiddenInput && e.1.all (fun a => !a.nonMatchingForm))).map Prod.snd

/-! ## `login` -/

/-- The type `Config`. -/
structure Config where
  Username : String
  Password : String
  Reservation : String

/-- What `login` reads of the response to the request for the login page. -/
structure FormResponse where
  /-- The bytes read from `formResp.Body`. -/
  Body : Bytes
  /-- The final URL `formResp.Request.URL.String()`. -/
  URL : String

/-- A `url.Values`: the values of each key, in the order they were added. -/
abbrev Values := List (String × List String)

/-- The method `Values.Add`. -/
def Values.Add : Values → String → String → Values
  | [], k, v => [(k, [v])]
  | (k0, vs) :: rest, k, v =>
    if k0 = k then (k0, vs ++ [v]) :: rest else (k0, vs) :: Values.Add rest k v

/-- The outside world of one call of `login`. An error is its message. -/
structure LoginEnv where
  /-- The result of `client.Do(formReq)`. -/
  getForm : Except String FormResponse
  /-- The function `html.Parse`. -/
  parse : Bytes → Except String Node
  /-- The error of `http.NewRequest("POST", url, ...)`, if any. -/
  newRequest : String → Option String
  /-- The result of `client.Do(loginReq)`: the bytes read from `loginResp.Body`. -/
  post : String → Values → Except String Bytes

/-- The form values `login` posts: the hidden fields, then `identity` and `credential`. -/
def formValuesOf (hiddenFields : StrMap) (config : Config) : Values :=
  ((hiddenFields.foldl (fun vs kv => Values.Add vs kv.1 kv.2) []).Add
    "identity" config.Username).Add "credential" config.Password

/-- The function `login`, from the result of `client.Do(formReq)` on; the result is the
error, `none` for `nil`. The hidden fields are added to the form values in the order of the
association list: their keys are distinct, so the order in which Go iterates the map does
not change the values of any key. -/
def login (env : LoginEnv) (config : Config) : Option String :=
  match env.getForm with
  | .error err => some ("fetching login form page: " ++ err)
  | .ok formResp =>
    match env.parse formResp.Body with
    | .error err => some ("parsing login page: " ++ err)
    | .ok doc =>
      let hiddenFields := f doc []
      let formValues := formValuesOf hiddenFields config
      match env.newRequest formResp.URL with
      | some err => some ("creating login request: " ++ err)
      | none =>
        match env.post formResp.URL formValues with
        | .error err => some ("fetching account page: " ++ err)
        | .ok body =>
          if !Contains body (bytes "Sign Out") then
            some "account page does not say Sign Out"
          else none

/-! ## `getDeliveryDate` -/

/-- The marker `searchString`. -/
def searchString : Bytes := bytes "copyOverride\":\"Estimated Delivery: "

/-- The function `getDeliveryDate`, given the result of `client.Do(req)` (the bytes read
from the body, or the message of the error). It returns the pair of the value and the
error (`none` for `nil`), or panics when the index 2 is out of range. The construction of
the request, whose error the source does not look at, is not modelled. -/
def getDeliveryDate (resp : Except String Bytes) : Outcome (Bytes × Option String) :=
  match resp with
  | .error err => .returned ([], some ("fetching reservation profile page: " ++ err))
  | .ok bodyString =>
    let loc := Index bodyString searchString
    if loc = -1 then .returned ([], some "no delivery date found")
    else if loc + 100 > (bodyString.length : Int) then
      .returned ([], some "no delivery date found (short string)")
    else
      let dateWithSuffix := (bodyString.drop loc.toNat).take 100
      match (Split quote dateWithSuffix)[2]? with
      | some dates => .returned (dates, none)
      | none => .panicked

/-- The position `loc` is the first occurrence of `substr` in `s`. -/
def FirstOccurrence (s substr : Bytes) (loc : Nat) : Prop :=
  substr <+: s.drop loc ∧ loc + substr.length ≤ s.length ∧ ∀ j < loc, ¬ substr <+: s.drop j

/-! ## `monitorDeliveryDate` -/

/-- What the monitor loop does, in the order it does it. A session is the number of the
cookie jar and client it was constructed as. -/
inductive Action where
  /-- The calls `cookiejar.New` and `&http.Client` succeeded: session `id` exists. -/
  | newSession (id : Nat)
  /-- The call `cookiejar.New` returned an error. -/
  | jarError
  /-- The call `os.Exit`. -/
  | exit (code : Nat)
  /-- The call `login(client, config)` on session `id` returned `err`. -/
  | login (id : Nat) (err : Option String)
  /-- The call `time.Sleep(1 * time.Minute)`. -/
  | sleep
  /-- The call `getDeliveryDate` on session `id` returned `d` and `err`. -/
  | fetch (id : Nat) (d : Bytes) (err : Option String)
  /-- The line `New Delivery Date!` was printed for `d`. -/
  | notify (d : Bytes)
  /-- The wait `<-time.Tick(*refresh)`. -/
  | tick
  deriving DecidableEq, Repr

/-- Where the control of `monitorDeliveryDate` is. -/
inductive PC where
  /-- At the top of the outer loop. -/
  | top
  /-- At the top of the inner loop, with the client of session `client`. -/
  | polling (client : Nat)
  /-- After `os.Exit`. -/
  | exited
  deriving DecidableEq, Repr

/-- The state of `monitorDeliveryDate`. -/
structure Monitor where
  /-- The variable `deliveryDate`. -/
  deliveryDate : Bytes
  pc : PC
  /-- How many sessions were constructed. -/
  sessions : Nat
  /-- Everything done so far, the oldest first. -/
  trace : List Action
  deriving DecidableEq, Repr

/-- What the outside world answers to the monitor loop. -/
inductive Input where
  /-- The call `cookiejar.New` fails. -/
  | jarFailed
  /-- The call `cookiejar.New` succeeds and `login` returns `err`. -/
  | loginResult (err : Option String)
  /-- The call `getDeliveryDate` returns `d` and `err`. -/
  | fetchResult (d : Bytes) (err : Option String)
  deriving DecidableEq, Repr

/-- The state in which `monitorDeliveryDate` starts. -/
def Monitor.initial : Monitor :=
  { deliveryDate := [], pc := .top, sessions := 0, trace := [] }

/-- The monitor loop up to its next call of `login` or `getDeliveryDate`, given the answer
to the one it is at; `none` when the answer is not one to the call it is at. -/
def Monitor.step (s : Monitor) : Input → Option Monitor
  | .jarFailed =>
    match s.pc with
    | .top => some { s with pc := .exited, trace := s.trace ++ [.jarError, .exit 2] }
    | _ => none
  | .loginResult err =>
    match s.pc with
    | .top =>
      match err with
      | some e =>
        some { s with
          sessions := s.sessions + 1
          trace := s.trace ++ [.newSession s.sessions, .login s.sessions (some e), .sleep] }
      | none =>
        some { s with
          pc := .polling s.sessions
          sessions := s.sessions + 1
          trace := s.trace ++ [.newSession s.sessions, .login s.sessions none] }
    | _ => none
  | .fetchResult d err =>
    match s.pc with
    | .polling client =>
      match err with
      | some e =>
        some { s with pc := .top, trace := s.trace ++ [.fetch client d (some e), .sleep] }
      | none =>
        if d ≠ s.deliveryDate then
          some { s with
            deliveryDate := d
            trace := s.trace ++ [.fetch client d none, .notify d, .tick] }
        else
          some { s with trace := s.trace ++ [.fetch client d none, .tick] }
    | _ => none

/-- The monitor loop on a sequence of answers. -/
def Monitor.run (s : Monitor) : List Input → Option Monitor
  | [] => some s
  | i :: rest => (s.step i).bind (fun s1 => Monitor.run s1 rest)

/-- The delivery dates for which a notification was printed, the oldest first. -/
def notifications (trace : List Action) : List Bytes :=
  trace.filterMap (fun a => match a with
    | .notify d => some d
    | _ => none)

/-- The session a request (`login` or `getDeliveryDate`) was made on. -/
def Action.requestOn : Action → Option Nat
  | .login id _ => some id
  | .fetch id _ _ => some id
  | _ => none

/-- The session of a request that failed. -/
def Action.failedOn : Action → Option Nat
  | .login id (some _) => some id
  | .fetch id _ (some _) => some id
  | _ => none

/-- The session an action constructs or uses. -/
def Action.session : Action → Option Nat
  | .newSession id => some id
  | .login id _ => some id
  | .fetch id _ _ => some id
  | _ => none

/-! ## Concrete inputs -/

/-- An element node. -/
def el (data : String) (attrs : List (String × String)) (children : List Node) : Node :=
  .mk .ElementNode data (attrs.map (fun kv => { Namespace := "", Key := kv.1, Val := kv.2 }))
    children

/-- A document node. -/
def document (children : List Node) : Node := .mk .DocumentNode "" [] children

/-- A hidden input element. -/
def hidden (name value : String) : Node :=
  el "input" [("type", "hidden"), ("name", name), ("value", value)] []

/-! ## Vocabulary of the proofs and concrete inputs of the claims -/

instance (s substr : Bytes) (loc : Nat) : Decidable (FirstOccurrence s substr loc) := by
  unfold FirstOccurrence; infer_instance

/-- A response body with the marker, the value `March 2024` and a closing quote, then
padding so that 100 bytes remain after the marker. -/
def marchBody : Bytes :=
  bytes "\"deliveryDetails\":[\"copyOverride\":\"Estimated Delivery: March 2024\"]" ++
    List.replicate 80 32

/-- A response body in which the marker is too close to the end. -/
def shortBody : Bytes :=
  bytes "\"deliveryDetails\":[\"copyOverride\":\"Estimated Delivery: March 2024\"]"

/-- A response body without the marker. -/
def signInBody : Bytes := bytes "<html><body>Please sign in</body></html>"

/-- No non-matching form among `anc`. -/
def unshadowed (anc : List Node) : Bool := anc.all (fun a => !a.nonMatchingForm)

/-- The entry of a hidden input element without a non-matching form above it. -/
def visible (e : List Node × Node) : Bool := e.2.hiddenInput && unshadowed e.1

/-- The assignment `hiddenFields[attrMap["name"]] = attrMap["value"]` for the node of `e`. -/
def collect (m : StrMap) (e : List Node × Node) : StrMap := m.set e.2.pair.1 e.2.pair.2

/-- The form element with id `form` of a tree that has exactly one. -/
def theForm (doc : Node) : Option Node :=
  match (subtree doc).filter Node.matchingForm with
  | [frm] => some frm
  | _ => none

/-- A login page: a hidden input outside every form, and the form with id `form`. -/
def loginPage : Node :=
  document [el "html" [] [el "head" [] [], el "body" [] [
    hidden "tracking" "abc",
    el "form" [("id", "form"), ("method", "post")] [
      hidden "csrf" "t0k3n",
      el "input" [("type", "text"), ("name", "identity")] []]]]]

/-- A page without a form with id `form`, with a hidden input outside every form. -/
def searchPage : Node :=
  document [el "html" [] [el "body" [] [
    hidden "tracking" "abc",
    el "form" [("id", "search")] [hidden "q" "1"]]]]

/-- A page whose only hidden input is inside a form without an id. -/
def otherFormPage : Node :=
  document [el "html" [] [el "body" [] [el "form" [] [hidden "q" "1"]]]]

/-- A page with a form with id `search`, a form without an id and the form with id
`form`, each with hidden inputs; the name `csrf` occurs in the first and in the last. -/
def mixedPage : Node :=
  document [el "html" [] [el "body" [] [
    el "form" [("id", "search")] [hidden "q" "1", hidden "csrf" "stale"],
    el "form" [] [el "div" [] [hidden "x" "y"]],
    el "form" [("id", "form")] [hidden "csrf" "t0k3n"]]]]

/-- A world in which the login succeeds. -/
def signedInEnv : LoginEnv :=
  { getForm := .ok { Body := bytes "<html></html>", URL := "https://www.tesla.com/user/login" }
    parse := fun _ => .ok loginPage
    newRequest := fun _ => none
    post := fun _ _ => .ok (bytes "<a href=\"/logout\">Sign Out</a>") }

/-- Some credentials. -/
def someConfig : Config :=
  { Username := "user@example.com", Password := "hunter2", Reservation := "RN123456789" }

/-- What the inner loop does for a fetched value `p.2` when the last-known value is
`p.1`. -/
def pollActions (c : Nat) (p : Bytes × Bytes) : List Action :=
  if p.1 ≠ p.2 then [Action.fetch c p.2 none, Action.notify p.2, Action.tick]
  else [Action.fetch c p.2 none, Action.tick]

/-- The delivery date `March 2024`. -/
def dateA : Bytes := bytes "Estimated Delivery: March 2024"

/-- The delivery date `April 2024`. -/
def dateB : Bytes := bytes "Estimated Delivery: April 2024"

/-- No request is made on a session after a request on it failed. -/
def NoReuse (trace : List Action) : Prop :=
  trace.Pairwise (fun earlier later =>
    ∀ c, earlier.failedOn = some c → later.requestOn ≠ some c)

/-- Every `getDeliveryDate` is made on a session on which a `login` succeeded before. -/
def FetchAfterLogin (trace : List Action) : Prop :=
  ∀ pre c d err post, trace = pre ++ Action.fetch c d err :: post →
    Action.login c none ∈ pre

/-- After a failed request the loop sleeps and then constructs a session that did not
exist before and calls `login` on it, unless `cookiejar.New` fails and the process
exits; `post` is everything done after the failed request. -/
def FreshAfterFailure (trace : List Action) : Prop :=
  ∀ pre a post c, trace = pre ++ a :: post → a.failedOn = some c →
    post = [Action.sleep] ∨
    post = [Action.sleep, Action.jarError, Action.exit 2] ∨
    ∃ m err rest, post = Action.sleep :: Action.newSession m :: Action.login m err :: rest ∧
      ∀ b ∈ pre ++ [a], b.session ≠ some m

/-- A run of the monitor loop: a failed login, a login, two fetches, a failed fetch,
a login. -/
def someRun : List Input :=
  [.loginResult (some "fetching login form page: timeout"), .loginResult none,
    .fetchResult dateA none, .fetchResult dateB none,
    .fetchResult [] (some "no delivery date found"), .loginResult none]

/-- What holds of every state the monitor loop reaches. -/
structure Monitor.Inv (s : Monitor) : Prop where
  bound : ∀ b ∈ s.trace, ∀ c, b.session = some c → c < s.sessions
  loggedIn : ∀ c, s.pc = PC.polling c → Action.login c none ∈ s.trace
  intact : ∀ c, s.pc = PC.polling c → ∀ b ∈ s.trace, b.failedOn ≠ some c
  awake : ∀ c, s.pc = PC.polling c → ∀ pre, s.trace ≠ pre ++ [Action.sleep]
  running : s.pc ≠ PC.exited → Action.jarError ∉ s.trace
  noReuse : NoReuse s.trace
  fetchAfterLogin : FetchAfterLogin s.trace
  freshAfterFailure : FreshAfterFailure s.trace

/-- What a step of the monitor loop does: the actions it adds and the state it leaves. -/
inductive Monitor.Chunk (s : Monitor) : List Action → Monitor → Prop where
  | jarFailed : s.pc = PC.top →
      Monitor.Chunk s [.jarError, .exit 2]
        { s with pc := .exited, trace := s.trace ++ [.jarError, .exit 2] }
  | loginFailed (e : String) : s.pc = PC.top →
      Monitor.Chunk s [.newSession s.sessions, .login s.sessions (some e), .sleep]
        { s with
          pc := .top
          sessions := s.sessions + 1
          trace := s.trace ++ [.newSession s.sessions, .login s.sessions (some e), .sleep] }
  | loggedIn : s.pc = PC.top →
      Monitor.Chunk s [.newSession s.sessions, .login s.sessions none]
        { s with
          pc := .polling s.sessions
          sessions := s.sessions + 1
          trace := s.trace ++ [.newSession s.sessions, .login s.sessions none] }
  | fetchFailed (c : Nat) (d : Bytes) (e : String) : s.pc = PC.polling c →
      Monitor.Chunk s [.fetch c d (some e), .sleep]
        { s with pc := .top, trace := s.trace ++ [.fetch c d (some e), .sleep] }
  | changed (c : Nat) (d : Bytes) : s.pc = PC.polling c →
      Monitor.Chunk s [.fetch c d none, .notify d, .tick]
        { s with
          deliveryDate := d
          pc := .polling c
          trace := s.trace ++ [.fetch c d none, .notify d, .tick] }
  | same (c : Nat) (d : Bytes) : s.pc = PC.polling c →
      Monitor.Chunk s [.fetch c d none, .tick]
        { s with pc := .polling c, trace := s.trace ++ [.fetch c d none, .tick] }

/-- The state the monitor loop is in after `someRun`. -/
def someRunEnd : Monitor :=
  { deliveryDate := dateB
    pc := .polling 2
    sessions := 3
    trace := [
      .newSession 0, .login 0 (some "fetching login form page: timeout"), .sleep,
      .newSession 1, .login 1 none,
      .fetch 1 dateA none, .notify dateA, .tick,
      .fetch 1 dateB none, .notify dateB, .tick,
      .fetch 1 [] (some "no delivery date found"), .sleep,
      .newSession 2, .login 2 none] }

/-! ## Facts about `Index` and `Split` -/

theorem indexNat_eq_none (substr : Bytes) :
    ∀ s : Bytes, indexNat s substr = none ↔ ∀ j, ¬ substr <+: s.drop j := by
  intro s
  induction s with
  | nil =>
    unfold indexNat
    by_cases h : substr.isPrefixOf [] = true
    · rw [if_pos h]
      constructor
      · intro h0; cases h0
      · intro h0; exact absurd (List.isPrefixOf_iff_prefix.mp h) (by simpa using h0 0)
    · rw [if_neg h]
      constructor
      · intro _ j hj
        apply h
        rw [List.isPrefixOf_iff_prefix]
        simpa using hj
      · intro _; trivial
  | cons a t ih =>
    unfold indexNat
    by_cases h : substr.isPrefixOf (a :: t) = true
    · rw [if_pos h]
      constructor
      · intro h0; cases h0
      · intro h0; exact absurd (List.isPrefixOf_iff_prefix.mp h) (by simpa using h0 0)
    · rw [if_neg h]; simp only [Option.map_eq_none']
      rw [ih]
      constructor
      · intro h0 j
        cases j with
        | zero =>
          intro hj; apply h; rw [List.isPrefixOf_iff_prefix]; simpa using hj
        | succ j => simpa using h0 j
      · intro h0 j
        simpa using h0 (j + 1)

theorem indexNat_eq_some (substr : Bytes) :
    ∀ (s : Bytes) (i : Nat), indexNat s substr = some i ↔ FirstOccurrence s substr i := by
  intro s
  induction s with
  | nil =>
    intro i
    unfold indexNat FirstOccurrence
    by_cases h : substr.isPrefixOf [] = true
    · have hp : substr <+: [] := List.isPrefixOf_iff_prefix.mp h
      have hnil : substr = [] := List.prefix_nil.mp hp
      rw [if_pos h]; simp only [Option.some.injEq]
      subst hnil
      constructor
      · intro h0; subst h0; simp
      · intro h0
        rcases Nat.eq_zero_or_pos i with h1 | h1
        · exact h1.symm
        · exact absurd (List.nil_prefix) (h0.2.2 0 h1)
    · rw [if_neg h]
      constructor
      · intro h0; cases h0
      · intro h0
        exfalso; apply h; rw [List.isPrefixOf_iff_prefix]; simpa using h0.1
  | cons a t ih =>
    intro i
    unfold indexNat
    by_cases h : substr.isPrefixOf (a :: t) = true
    · have hp : substr <+: a :: t := List.isPrefixOf_iff_prefix.mp h
      rw [if_pos h]; simp only [Option.some.injEq]
      unfold FirstOccurrence
      constructor
      · intro h0; subst h0
        refine ⟨by simpa using hp, by simpa using hp.length_le, ?_⟩
        intro j hj; omega
      · intro h0
        rcases Nat.eq_zero_or_pos i with h1 | h1
        · exact h1.symm
        · exact absurd (by simpa using hp) (h0.2.2 0 h1)
    · have hp : ¬ substr <+: a :: t := fun hp => h (List.isPrefixOf_iff_prefix.mpr hp)
      rw [if_neg h]; simp only [Option.map_eq_some']
      constructor
      · rintro ⟨i1, h1, rfl⟩
        have h2 := (ih i1).mp h1
        unfold FirstOccurrence at h2 ⊢
        refine ⟨by simpa using h2.1, ?_, ?_⟩
        · have := h2.2.1; simp only [List.length_cons]; omega
        · intro j hj
          cases j with
          | zero => simpa using hp
          | succ j => simpa using h2.2.2 j (by omega)
      · intro h0
        unfold FirstOccurrence at h0
        cases i with
        | zero => exact absurd (by simpa using h0.1) hp
        | succ i1 =>
          refine ⟨i1, (ih i1).mpr ?_, rfl⟩
          unfold FirstOccurrence
          refine ⟨by simpa using h0.1, ?_, ?_⟩
          · have := h0.2.1; simp only [List.length_cons] at this; omega
          · intro j hj
            simpa using h0.2.2 (j + 1) (by omega)

theorem infix_iff_drop (substr s : Bytes) : substr <:+: s ↔ ∃ j, substr <+: s.drop j := by
  constructor
  · rintro ⟨a, b, rfl⟩
    exact ⟨a.length, ⟨b, by simp⟩⟩
  · rintro ⟨j, hj⟩
    exact List.IsInfix.trans hj.isInfix (List.drop_suffix j s).isInfix

theorem Index_of_first (s substr : Bytes) (loc : Nat) (h : FirstOccurrence s substr loc) :
    Index s substr = (loc : Int) := by
  unfold Index
  rw [(indexNat_eq_some substr s loc).mpr h]

theorem Index_of_absent (s substr : Bytes) (h : ¬ substr <:+: s) : Index s substr = -1 := by
  unfold Index
  have h0 : indexNat s substr = none := by
    rw [indexNat_eq_none]
    intro j hj
    exact h ((infix_iff_drop substr s).mpr ⟨j, hj⟩)
  rw [h0]

theorem first_or_absent (s substr : Bytes) :
    ¬ substr <:+: s ∨ ∃ loc, FirstOccurrence s substr loc := by
  cases h : indexNat s substr with
  | none =>
    left
    intro hin
    obtain ⟨j, hj⟩ := (infix_iff_drop substr s).mp hin
    exact (indexNat_eq_none substr s).mp h j hj
  | some i => exact Or.inr ⟨i, (indexNat_eq_some substr s i).mp h⟩

theorem Split_ne_nil (sep : UInt8) : ∀ s : Bytes, Split sep s ≠ [] := by
  intro s
  induction s with
  | nil => simp [Split]
  | cons b t ih =>
    unfold Split
    by_cases hb : b = sep
    · simp [hb]
    · rw [if_neg hb]
      cases h : Split sep t with
      | nil => simp
      | cons seg segs => simp

theorem Split_length (sep : UInt8) : ∀ s : Bytes, (Split sep s).length = s.count sep + 1 := by
  intro s
  induction s with
  | nil => simp [Split]
  | cons b t ih =>
    unfold Split
    by_cases hb : b = sep
    · subst hb
      simp [ih]
    · rw [if_neg hb]
      have hc : List.count sep (b :: t) = List.count sep t := by
        rw [List.count_cons]
        simp [hb]
      rw [hc, ← ih]
      cases h : Split sep t with
      | nil => exact absurd h (Split_ne_nil sep t)
      | cons seg segs => simp

theorem Split_append_sep (sep : UInt8) (b : Bytes) :
    ∀ a : Bytes, sep ∉ a → Split sep (a ++ sep :: b) = a :: Split sep b := by
  intro a
  induction a with
  | nil => intro _; simp [Split]
  | cons x a ih =>
    intro hx
    have hne : ¬ x = sep := fun h => hx (by simp [h])
    have hrest : sep ∉ a := fun h => hx (by simp [h])
    have e : Split sep (x :: (a ++ sep :: b)) =
        (match Split sep (a ++ sep :: b) with
          | seg :: segs => (x :: seg) :: segs
          | [] => [[x]]) := by
      rw [Split, if_neg hne]
    show Split sep (x :: (a ++ sep :: b)) = _
    rw [e, ih hrest]

/-- The window `bodyString[loc : loc+100]` at an occurrence of the marker starts with the
marker. -/
theorem window_eq (body : Bytes) (loc : Nat) (h : searchString <+: body.drop loc) :
    (body.drop loc).take 100 =
      searchString ++ (body.drop (loc + searchString.length)).take 65 := by
  obtain ⟨r, hr⟩ := h
  have hd : body.drop (loc + searchString.length) = r := by
    rw [← List.drop_drop, ← hr]
    simp
  rw [hd, ← hr, List.take_append_eq_append_take]
  have hl : searchString.length = 35 := by decide
  rw [List.take_of_length_le (by omega), hl]

theorem searchString_eq :
    searchString = bytes "copyOverride" ++ quote :: (bytes ":" ++ quote :: bytes "Estimated Delivery: ") := by
  decide

theorem getDeliveryDate_at (body : Bytes) (loc : Nat)
    (h : FirstOccurrence body searchString loc) (hlen : loc + 100 ≤ body.length) :
    getDeliveryDate (.ok body) =
      match (Split quote ((body.drop loc).take 100))[2]? with
      | some dates => .returned (dates, none)
      | none => .panicked := by
  unfold getDeliveryDate
  simp only [Index_of_first body searchString loc h]
  have h1 : ¬ ((loc : Int) = -1) := by omega
  have h2 : ¬ ((loc : Int) + 100 > (body.length : Int)) := by omega
  rw [if_neg h1, if_neg h2]
  simp

theorem window_segments (body : Bytes) (loc : Nat) (h : searchString <+: body.drop loc) :
    Split quote ((body.drop loc).take 100) =
      bytes "copyOverride" :: bytes ":" ::
        Split quote (bytes "Estimated Delivery: " ++
          (body.drop (loc + searchString.length)).take 65) := by
  rw [window_eq body loc h, searchString_eq]
  generalize (body.drop (loc + (bytes "copyOverride" ++ quote ::
    (bytes ":" ++ quote :: bytes "Estimated Delivery: ")).length)).take 65 = r
  have e : (bytes "copyOverride" ++ quote :: (bytes ":" ++ quote :: bytes "Estimated Delivery: ")) ++ r
      = bytes "copyOverride" ++ quote :: (bytes ":" ++ quote :: (bytes "Estimated Delivery: " ++ r)) := by
    simp
  rw [e, Split_append_sep quote _ _ (by decide), Split_append_sep quote _ _ (by decide)]

/-! ## The claims about `getDeliveryDate` -/

/-- C4, as stated, fails: on a body whose first marker is followed by `March 2024` and a
closing quote inside the window, with 100 bytes remaining, `getDeliveryDate` does not
return `March 2024`; it returns `Estimated Delivery: March 2024`. -/
theorem getDeliveryDate_value_counterexample :
    FirstOccurrence marchBody searchString 20 ∧
    quote ∉ bytes "March 2024" ∧
    bytes "March 2024" ++ [quote] <+: marchBody.drop (20 + searchString.length) ∧
    searchString.length + (bytes "March 2024").length + 1 ≤ 100 ∧
    100 ≤ marchBody.length - 20 ∧
    getDeliveryDate (.ok marchBody) ≠ .returned (bytes "March 2024", none) ∧
    getDeliveryDate (.ok marchBody) =
      .returned (bytes "Estimated Delivery: March 2024", none) := by
  decide

/-- C4, amended: when the first occurrence of the marker is followed by a value `V`
without a quote and then a quote, all inside the 100 byte window, and 100 bytes remain
from the marker, `getDeliveryDate` succeeds and returns `Estimated Delivery: ` followed
by `V` (the third segment of the window, which starts inside the marker). -/
theorem getDeliveryDate_value (body V : Bytes) (loc : Nat)
    (h : FirstOccurrence body searchString loc)
    (hV : quote ∉ V)
    (hfollow : V ++ [quote] <+: body.drop (loc + searchString.length))
    (hwin : searchString.length + V.length + 1 ≤ 100)
    (hlen : 100 ≤ body.length - loc) :
    getDeliveryDate (.ok body) = .returned (bytes "Estimated Delivery: " ++ V, none) := by
  have hl : searchString.length = 35 := by decide
  rw [getDeliveryDate_at body loc h (by omega), window_segments body loc h.1]
  obtain ⟨r, hr⟩ := hfollow
  rw [← hr]
  have e1 : (V ++ [quote] ++ r).take 65 = V ++ quote :: r.take (65 - (V.length + 1)) := by
    rw [List.take_append_eq_append_take, List.take_of_length_le (by simp; omega)]
    simp
  have hq : quote ∉ bytes "Estimated Delivery: " ++ V := by
    intro hmem
    rcases List.mem_append.mp hmem with h1 | h1
    · exact absurd h1 (by decide)
    · exact hV h1
  rw [e1, ← List.append_assoc, Split_append_sep quote _ _ hq]
  simp

theorem getDeliveryDate_value_witness :
    getDeliveryDate (.ok marchBody) =
      .returned (bytes "Estimated Delivery: " ++ bytes "March 2024", none) :=
  getDeliveryDate_value marchBody (bytes "March 2024") 20 (by decide) (by decide) (by decide)
    (by decide) (by decide)

/-- C5: when the marker occurs and fewer than 100 bytes remain in the body from its first
occurrence, `getDeliveryDate` returns (it does not panic) the empty value and the error
`no delivery date found (short string)`. -/
theorem getDeliveryDate_short_string (body : Bytes) (loc : Nat)
    (h : FirstOccurrence body searchString loc) (hshort : body.length - loc < 100) :
    getDeliveryDate (.ok body) =
      .returned ([], some "no delivery date found (short string)") := by
  unfold getDeliveryDate
  simp only [Index_of_first body searchString loc h]
  have h1 : ¬ ((loc : Int) = -1) := by omega
  have h2 : (loc : Int) + 100 > (body.length : Int) := by omega
  rw [if_neg h1, if_pos h2]

theorem getDeliveryDate_short_string_witness :
    getDeliveryDate (.ok shortBody) =
      .returned ([], some "no delivery date found (short string)") :=
  getDeliveryDate_short_string shortBody 20 (by decide) (by decide)

/-- C6: when the marker is not a substring of the body, `getDeliveryDate` returns the
empty value and the error `no delivery date found`, which is not the error of the short
string case. -/
theorem getDeliveryDate_not_found (body : Bytes) (h : ¬ searchString <:+: body) :
    getDeliveryDate (.ok body) = .returned ([], some "no delivery date found") ∧
    "no delivery date found" ≠ "no delivery date found (short string)" := by
  refine ⟨?_, by decide⟩
  unfold getDeliveryDate
  simp only [Index_of_absent body searchString h]
  rfl

theorem getDeliveryDate_not_found_witness :
    getDeliveryDate (.ok signInBody) = .returned ([], some "no delivery date found") ∧
    "no delivery date found" ≠ "no delivery date found (short string)" :=
  getDeliveryDate_not_found signInBody (by decide)

/-- C10: `getDeliveryDate` never panics. When the marker occurs with at least 100 bytes
remaining from its first occurrence, the window splits on the quote into at least three
segments and the function returns the one at index 2 without an error; and it returns an
error exactly when the marker is absent or fewer than 100 bytes remain from its first
occurrence. -/
theorem getDeliveryDate_index_in_range (body : Bytes) :
    getDeliveryDate (.ok body) ≠ .panicked ∧
    (∀ loc, FirstOccurrence body searchString loc → 100 ≤ body.length - loc →
      3 ≤ (Split quote ((body.drop loc).take 100)).length ∧
      ∃ dates, (Split quote ((body.drop loc).take 100))[2]? = some dates ∧
        getDeliveryDate (.ok body) = .returned (dates, none)) ∧
    ((∃ v e, getDeliveryDate (.ok body) = .returned (v, some e)) ↔
      (¬ searchString <:+: body ∨
        ∃ loc, FirstOccurrence body searchString loc ∧ body.length - loc < 100)) := by
  have hl : searchString.length = 35 := by decide
  have key : ∀ loc, FirstOccurrence body searchString loc → 100 ≤ body.length - loc →
      3 ≤ (Split quote ((body.drop loc).take 100)).length ∧
      ∃ dates, (Split quote ((body.drop loc).take 100))[2]? = some dates ∧
        getDeliveryDate (.ok body) = .returned (dates, none) := by
    intro loc h hlen
    have hseg := window_segments body loc h.1
    have hlen3 : 3 ≤ (Split quote ((body.drop loc).take 100)).length := by
      rw [hseg]
      have := Split_length quote
        (bytes "Estimated Delivery: " ++ (body.drop (loc + searchString.length)).take 65)
      simp only [List.length_cons]
      omega
    refine ⟨hlen3, ?_⟩
    have hex : ∃ dates, (Split quote ((body.drop loc).take 100))[2]? = some dates :=
      ⟨_, List.getElem?_eq_getElem (by omega)⟩
    obtain ⟨dates, hd⟩ := hex
    refine ⟨dates, hd, ?_⟩
    have h100 : loc + 100 ≤ body.length := by have := h.2.1; omega
    rw [getDeliveryDate_at body loc h h100, hd]
  refine ⟨?_, key, ?_⟩
  · rcases first_or_absent body searchString with h | ⟨loc, h⟩
    · rw [(getDeliveryDate_not_found body h).1]
      intro h0; cases h0
    · by_cases hlen : 100 ≤ body.length - loc
      · obtain ⟨_, dates, _, hd⟩ := key loc h hlen
        rw [hd]; intro h0; cases h0
      · rw [getDeliveryDate_short_string body loc h (by omega)]
        intro h0; cases h0
  · constructor
    · rintro ⟨v, e, hve⟩
      rcases first_or_absent body searchString with h | ⟨loc, h⟩
      · exact Or.inl h
      · right
        refine ⟨loc, h, ?_⟩
        by_contra hlen
        obtain ⟨_, dates, _, hd⟩ := key loc h (by omega)
        rw [hd] at hve
        cases hve
    · rintro (h | ⟨loc, h, hshort⟩)
      · exact ⟨_, _, (getDeliveryDate_not_found body h).1⟩
      · exact ⟨_, _, getDeliveryDate_short_string body loc h hshort⟩

theorem getDeliveryDate_index_in_range_witness :
    FirstOccurrence marchBody searchString 20 ∧ 100 ≤ marchBody.length - 20 ∧
    3 ≤ (Split quote ((marchBody.drop 20).take 100)).length :=
  ⟨by decide, by decide,
    ((getDeliveryDate_index_in_range marchBody).2.1 20 (by decide) (by decide)).1⟩

/-! ## The traversal `f` as a fold over the tree -/

theorem withAncestors_mk (anc : List Node) (ty : NodeType) (data : String)
    (attr : List Attribute) (children : List Node) :
    withAncestors anc (Node.mk ty data attr children) =
      (anc, Node.mk ty data attr children) ::
        withAncestorsList (Node.mk ty data attr children :: anc) children := by
  rw [withAncestors]

theorem withAncestorsList_cons (anc : List Node) (c : Node) (rest : List Node) :
    withAncestorsList anc (c :: rest) = withAncestors anc c ++ withAncestorsList anc rest := by
  rw [withAncestorsList]

theorem withAncestorsList_nil (anc : List Node) : withAncestorsList anc [] = [] := by
  rw [withAncestorsList]

mutual
theorem withAncestors_suffix : ∀ (n : Node) (anc : List Node),
    ∀ e ∈ withAncestors anc n, anc <:+ e.1
  | .mk ty data attr children, anc => by
    intro e he
    rw [withAncestors_mk, List.mem_cons] at he
    rcases he with rfl | he
    · exact List.suffix_refl _
    · exact (List.suffix_cons _ _).trans (withAncestorsList_suffix children _ e he)
theorem withAncestorsList_suffix : ∀ (cs : List Node) (anc : List Node),
    ∀ e ∈ withAncestorsList anc cs, anc <:+ e.1
  | [], anc => by
    intro e he
    rw [withAncestorsList_nil] at he
    cases he
  | c :: rest, anc => by
    intro e he
    rw [withAncestorsList_cons, List.mem_append] at he
    rcases he with he | he
    · exact withAncestors_suffix c anc e he
    · exact withAncestorsList_suffix rest anc e he
end

mutual
theorem withAncestors_ancestor : ∀ (n : Node) (anc : List Node),
    ∀ e ∈ withAncestors anc n, ∀ a ∈ e.1, a ∈ anc ∨ ∃ e1 ∈ withAncestors anc n, e1.2 = a
  | .mk ty data attr children, anc => by
    intro e he a ha
    rw [withAncestors_mk, List.mem_cons] at he
    rcases he with rfl | he
    · exact Or.inl ha
    · rcases withAncestorsList_ancestor children _ e he a ha with h | ⟨e1, he1, h1⟩
      · rcases List.mem_cons.mp h with h | h
        · right
          refine ⟨(anc, Node.mk ty data attr children), ?_, h.symm⟩
          rw [withAncestors_mk]
          exact List.mem_cons_self _ _
        · exact Or.inl h
      · right
        refine ⟨e1, ?_, h1⟩
        rw [withAncestors_mk]
        exact List.mem_cons_of_mem _ he1
theorem withAncestorsList_ancestor : ∀ (cs : List Node) (anc : List Node),
    ∀ e ∈ withAncestorsList anc cs, ∀ a ∈ e.1,
      a ∈ anc ∨ ∃ e1 ∈ withAncestorsList anc cs, e1.2 = a
  | [], anc => by
    intro e he
    rw [withAncestorsList_nil] at he
    cases he
  | c :: rest, anc => by
    intro e he a ha
    rw [withAncestorsList_cons, List.mem_append] at he
    rcases he with he | he
    · rcases withAncestors_ancestor c anc e he a ha with h | ⟨e1, he1, h1⟩
      · exact Or.inl h
      · right
        refine ⟨e1, ?_, h1⟩
        rw [withAncestorsList_cons]
        exact List.mem_append_left _ he1
    · rcases withAncestorsList_ancestor rest anc e he a ha with h | ⟨e1, he1, h1⟩
      · exact Or.inl h
      · right
        refine ⟨e1, ?_, h1⟩
        rw [withAncestorsList_cons]
        exact List.mem_append_right _ he1
end

theorem unshadowed_of_suffix (anc full : List Node) (h : anc <:+ full)
    (hfull : unshadowed full = true) : unshadowed anc = true := by
  unfold unshadowed at *
  rw [List.all_eq_true] at *
  intro a ha
  exact hfull a (h.subset ha)

theorem filter_visible_shadowed (anc : List Node) (l : List (List Node × Node))
    (hl : ∀ e ∈ l, anc <:+ e.1) (h : unshadowed anc = false) : l.filter visible = [] := by
  rw [List.filter_eq_nil_iff]
  intro e he hv
  unfold visible at hv
  rw [Bool.and_eq_true] at hv
  have := unshadowed_of_suffix anc e.1 (hl e he) hv.2
  rw [h] at this
  cases this

theorem unshadowed_cons (n : Node) (anc : List Node) :
    unshadowed (n :: anc) = (!n.nonMatchingForm && unshadowed anc) := by
  unfold unshadowed
  rw [List.all_cons]

theorem f_mk (ty : NodeType) (data : String) (attr : List Attribute) (children : List Node)
    (m : StrMap) :
    f (Node.mk ty data attr children) m =
      if ty = NodeType.ElementNode then
        if data = "form" then
          if formId attr ≠ "form" then m
          else fChildren children (inputStep data attr m)
        else fChildren children (inputStep data attr m)
      else fChildren children m := by
  rw [f]

theorem fChildren_nil (m : StrMap) : fChildren [] m = m := by
  rw [fChildren]

theorem fChildren_cons (c : Node) (rest : List Node) (m : StrMap) :
    fChildren (c :: rest) m = fChildren rest (f c m) := by
  rw [fChildren]

/-- The input block of `f` is the assignment for a hidden input element and nothing
otherwise. -/
theorem inputStep_eq (ty : NodeType) (data : String) (attr : List Attribute)
    (children : List Node) (anc : List Node) (m : StrMap) (hty : ty = NodeType.ElementNode) :
    inputStep data attr m =
      if (Node.mk ty data attr children).hiddenInput = true then
        collect m (anc, Node.mk ty data attr children) else m := by
  unfold inputStep Node.hiddenInput collect Node.pair
  simp only [Node.Type_, Node.Data, Node.Attr, hty, true_and, decide_eq_true_eq]
  by_cases hd : data = "input"
  · by_cases ht : (unpackAttrs attr).get "type" = "hidden"
    · simp [hd, ht]
    · simp [hd, ht]
  · simp [hd]

mutual
theorem f_eq_foldl : ∀ (n : Node) (anc : List Node) (m : StrMap), unshadowed anc = true →
    f n m = ((withAncestors anc n).filter visible).foldl collect m
  | .mk ty data attr children, anc, m => by
    intro hanc
    rw [f_mk, withAncestors_mk, List.filter_cons]
    by_cases hty : ty = NodeType.ElementNode
    · rw [if_pos hty]
      by_cases hform : data = "form"
      · have hnot : (Node.mk ty data attr children).hiddenInput = false := by
          unfold Node.hiddenInput
          simp [Node.Data, hform]
        have hvis : visible (anc, Node.mk ty data attr children) = false := by
          unfold visible
          simp [hnot]
        rw [if_pos hform]
        simp only [hvis, Bool.false_eq_true, if_false]
        by_cases hid : formId attr ≠ "form"
        · rw [if_pos hid]
          have hsh : unshadowed (Node.mk ty data attr children :: anc) = false := by
            rw [unshadowed_cons]
            unfold Node.nonMatchingForm
            simp [Node.Type_, Node.Data, Node.Attr, hty, hform, hid]
          rw [filter_visible_shadowed _ _
            (withAncestorsList_suffix children (Node.mk ty data attr children :: anc)) hsh]
          rfl
        · rw [if_neg hid]
          have hsh : unshadowed (Node.mk ty data attr children :: anc) = true := by
            rw [unshadowed_cons, hanc]
            unfold Node.nonMatchingForm
            simp [Node.Type_, Node.Data, Node.Attr, hty, hform, hid]
          rw [inputStep_eq ty data attr children anc m hty, hnot]
          simp only [Bool.false_eq_true, if_false]
          exact fChildren_eq_foldl children _ m hsh
      · rw [if_neg hform]
        have hsh : unshadowed (Node.mk ty data attr children :: anc) = true := by
          rw [unshadowed_cons, hanc]
          unfold Node.nonMatchingForm
          simp [Node.Type_, Node.Data, Node.Attr, hty, hform]
        rw [inputStep_eq ty data attr children anc m hty]
        by_cases hin : (Node.mk ty data attr children).hiddenInput = true
        · have hvis : visible (anc, Node.mk ty data attr children) = true := by
            unfold visible
            simp [hin, hanc]
          rw [if_pos hin]
          simp only [hvis, if_true, List.foldl_cons]
          exact fChildren_eq_foldl children _ _ hsh
        · have hvis : visible (anc, Node.mk ty data attr children) = false := by
            unfold visible
            simp [hin]
          rw [if_neg hin]
          simp only [hvis, Bool.false_eq_true, if_false]
          exact fChildren_eq_foldl children _ m hsh
    · rw [if_neg hty]
      have hsh : unshadowed (Node.mk ty data attr children :: anc) = true := by
        rw [unshadowed_cons, hanc]
        unfold Node.nonMatchingForm
        simp [Node.Type_, hty]
      have hvis : visible (anc, Node.mk ty data attr children) = false := by
        unfold visible Node.hiddenInput
        simp [Node.Type_, hty]
      simp only [hvis, Bool.false_eq_true, if_false]
      exact fChildren_eq_foldl children _ m hsh
theorem fChildren_eq_foldl : ∀ (cs : List Node) (anc : List Node) (m : StrMap),
    unshadowed anc = true →
    fChildren cs m = ((withAncestorsList anc cs).filter visible).foldl collect m
  | [], anc, m => by
    intro _
    rw [fChildren_nil, withAncestorsList_nil]
    rfl
  | c :: rest, anc, m => by
    intro hanc
    rw [fChildren_cons, withAncestorsList_cons, List.filter_append, List.foldl_append,
      ← f_eq_foldl c anc m hanc]
    exact fChildren_eq_foldl rest anc _ hanc
end

/-! ## The map after a sequence of assignments -/

theorem mem_set (m : StrMap) (k v a b : String) :
    (a, b) ∈ m.set k v ↔ (a = k ∧ b = v) ∨ (a ≠ k ∧ (a, b) ∈ m) := by
  unfold StrMap.set
  rw [List.mem_cons, List.mem_filter]
  simp only [Prod.mk.injEq, bne_iff_ne, ne_eq]
  tauto

theorem keys_set (m : StrMap) (k v : String) (h : (m.map Prod.fst).Nodup) :
    ((m.set k v).map Prod.fst).Nodup := by
  unfold StrMap.set
  rw [List.map_cons, List.nodup_cons]
  constructor
  · intro hk
    rw [List.mem_map] at hk
    obtain ⟨p, hp, hpk⟩ := hk
    rw [List.mem_filter] at hp
    simp only [bne_iff_ne, ne_eq] at hp
    exact hp.2 hpk
  · exact (List.Nodup.sublist ((List.filter_sublist m).map Prod.fst) h)

theorem keys_foldl_collect : ∀ (l : List (List Node × Node)) (m : StrMap),
    (m.map Prod.fst).Nodup → ((l.foldl collect m).map Prod.fst).Nodup := by
  intro l
  induction l with
  | nil => intro m h; exact h
  | cons e l ih =>
    intro m h
    rw [List.foldl_cons]
    exact ih _ (keys_set m _ _ h)

theorem mem_foldl_collect (k v : String) : ∀ (l : List (List Node × Node)) (m : StrMap),
    (k, v) ∈ l.foldl collect m ↔
      (∃ e, l.reverse.find? (fun e => e.2.pair.1 == k) = some e ∧ e.2.pair.2 = v) ∨
      (l.reverse.find? (fun e => e.2.pair.1 == k) = none ∧ (k, v) ∈ m) := by
  intro l
  induction l with
  | nil => intro m; simp
  | cons e l ih =>
    intro m
    rw [List.foldl_cons, ih, List.reverse_cons, List.find?_append]
    cases hfind : l.reverse.find? (fun e => e.2.pair.1 == k) with
    | some e1 => simp
    | none =>
      unfold collect
      rw [mem_set]
      by_cases hk : e.2.pair.1 = k
      · have hb : (e.2.pair.1 == k) = true := by simpa using hk
        simp [hb]
        constructor
        · rintro (⟨_, h2⟩ | ⟨h1, _⟩)
          · exact h2.symm
          · exact absurd hk.symm h1
        · intro h; exact Or.inl ⟨hk.symm, h.symm⟩
      · have hb : (e.2.pair.1 == k) = false := by simpa using hk
        simp [hb]
        constructor
        · rintro (⟨h1, _⟩ | ⟨_, h2⟩)
          · exact absurd h1.symm hk
          · exact h2
        · intro h; exact Or.inr ⟨fun h1 => hk h1.symm, h⟩

theorem mem_foldl_collect_source (k v : String) : ∀ (l : List (List Node × Node))
    (m : StrMap), (k, v) ∈ l.foldl collect m → (k, v) ∈ m ∨ ∃ e ∈ l, e.2.pair = (k, v) := by
  intro l
  induction l with
  | nil => intro m h; exact Or.inl h
  | cons e l ih =>
    intro m h
    rw [List.foldl_cons] at h
    rcases ih _ h with h1 | ⟨e1, he1, h1⟩
    · unfold collect at h1
      rw [mem_set] at h1
      rcases h1 with ⟨hk, hv⟩ | ⟨_, hm⟩
      · right
        refine ⟨e, List.mem_cons_self _ _, ?_⟩
        rw [hk, hv]
      · exact Or.inl hm
    · exact Or.inr ⟨e1, List.mem_cons_of_mem _ he1, h1⟩

theorem f_doc (doc : Node) :
    f doc [] = ((withAncestors [] doc).filter visible).foldl collect [] :=
  f_eq_foldl doc [] [] rfl

/-! ## The claims about the traversal -/

/-- C1, on `loginPage`: the tree has exactly one form with id `form`, whose only hidden
input is `csrf`; the traversal returns that pair and also the pair `tracking` of the hidden
input that lies outside the form, which the claim (and the comment above the traversal in
the source) excludes. -/
theorem hiddenFields_loginPage :
    (∃ frm, theForm loginPage = some frm ∧
      (hiddenInputsIn frm).map Node.pair = [("csrf", "t0k3n")]) ∧
    f loginPage [] = [("csrf", "t0k3n"), ("tracking", "abc")] ∧
    ¬ (∀ frm, theForm loginPage = some frm →
        ∀ k v, (k, v) ∈ f loginPage [] ↔ (k, v) ∈ (hiddenInputsIn frm).map Node.pair) := by
  refine ⟨⟨_, rfl, by decide⟩, by decide, ?_⟩
  intro h
  have h1 := (h _ rfl "tracking" "abc").1 (by decide)
  revert h1
  decide

/-- What the traversal computes, for every tree: the map of hidden fields has no key
twice, and it holds the pair `(k, v)` exactly when the last, in document order, of the
hidden input elements with name `k` that have no non-matching form among their ancestors
has the value `v`. -/
theorem hiddenFields_exact (doc : Node) (k v : String) :
    ((f doc []).map Prod.fst).Nodup ∧
    ((k, v) ∈ f doc [] ↔
      ∃ n, (unshadowedInputs doc).reverse.find? (fun n => n.pair.1 == k) = some n ∧
        n.pair.2 = v) := by
  rw [f_doc]
  refine ⟨keys_foldl_collect _ [] List.nodup_nil, ?_⟩
  rw [mem_foldl_collect]
  unfold unshadowedInputs
  rw [← List.map_reverse, List.find?_map]
  simp only [List.not_mem_nil, and_false, or_false]
  constructor
  · rintro ⟨e, he, hv⟩
    refine ⟨e.2, ?_, hv⟩
    rw [Option.map_eq_some']
    refine ⟨e, ?_, rfl⟩
    rw [← he]
    rfl
  · rintro ⟨n, hn, hv⟩
    rw [Option.map_eq_some'] at hn
    obtain ⟨e, he, rfl⟩ := hn
    refine ⟨e, ?_, hv⟩
    rw [← he]
    rfl

/-- C2: every entry of the map of hidden fields is the name and value of a hidden input
element of the tree none of whose ancestors is a form with an id other than `form`
(or without an id): the subtree of such a form is skipped. -/
theorem hiddenFields_skip_nonMatching (doc : Node) (k v : String)
    (h : (k, v) ∈ f doc []) :
    ∃ e ∈ withAncestors [] doc,
      e.2.hiddenInput = true ∧ e.2.pair = (k, v) ∧ ∀ a ∈ e.1, a.nonMatchingForm = false := by
  rw [f_doc] at h
  rcases mem_foldl_collect_source k v _ [] h with h0 | ⟨e, he, hp⟩
  · cases h0
  · rw [List.mem_filter] at he
    refine ⟨e, he.1, ?_, hp, ?_⟩
    · have := he.2
      unfold visible at this
      rw [Bool.and_eq_true] at this
      exact this.1
    · have := he.2
      unfold visible unshadowed at this
      rw [Bool.and_eq_true, List.all_eq_true] at this
      intro a ha
      simpa using this.2 a ha

theorem hiddenFields_skip_nonMatching_witness :
    (∃ e ∈ withAncestors [] mixedPage, e.2.hiddenInput = true ∧ e.2.pair = ("q", "1") ∧
      ∃ a ∈ e.1, a.nonMatchingForm = true) ∧
    (∃ e ∈ withAncestors [] mixedPage, e.2.hiddenInput = true ∧ e.2.pair = ("csrf", "stale") ∧
      ∃ a ∈ e.1, a.nonMatchingForm = true) ∧
    ("q", "1") ∉ f mixedPage [] ∧
    ("csrf", "stale") ∉ f mixedPage [] ∧
    ("x", "y") ∉ f mixedPage [] ∧
    ("csrf", "t0k3n") ∈ f mixedPage [] ∧
    ∃ e ∈ withAncestors [] mixedPage,
      e.2.hiddenInput = true ∧ e.2.pair = ("csrf", "t0k3n") ∧
        ∀ a ∈ e.1, a.nonMatchingForm = false := by
  have skipped : ∀ k v,
      (∀ e ∈ withAncestors [] mixedPage, e.2.hiddenInput = true → e.2.pair = (k, v) →
        ∃ a ∈ e.1, a.nonMatchingForm = true) → (k, v) ∉ f mixedPage [] := by
    intro k v hall hmem
    obtain ⟨e, he, hin, hp, hanc⟩ := hiddenFields_skip_nonMatching mixedPage k v hmem
    obtain ⟨a, ha, hbad⟩ := hall e he hin hp
    rw [hanc a ha] at hbad
    cases hbad
  exact ⟨by decide, by decide, skipped "q" "1" (by decide), skipped "csrf" "stale" (by decide),
    skipped "x" "y" (by decide), by decide,
    hiddenFields_skip_nonMatching mixedPage "csrf" "t0k3n" (by decide)⟩

/-- C3, on `searchPage`: the tree has no form with id `form`, and the traversal returns
the pair `tracking` of the hidden input that lies outside every form, where the claim (and
the comment above the traversal in the source) has the empty map. -/
theorem hiddenFields_searchPage :
    (∀ n ∈ subtree searchPage, n.matchingForm = false) ∧
    f searchPage [] = [("tracking", "abc")] ∧ f searchPage [] ≠ [] := by
  decide

/-- Where the traversal does return the empty map: a tree without a form with id `form`
in which every hidden input element has a form element among its ancestors. -/
theorem hiddenFields_empty (doc : Node)
    (hno : ∀ n ∈ subtree doc, n.matchingForm = false)
    (hin : ∀ e ∈ withAncestors [] doc, e.2.hiddenInput = true → ∃ a ∈ e.1, a.isForm = true) :
    f doc [] = [] := by
  rw [f_doc]
  have hnil : (withAncestors [] doc).filter visible = [] := by
    rw [List.filter_eq_nil_iff]
    intro e he hv
    unfold visible unshadowed at hv
    rw [Bool.and_eq_true, List.all_eq_true] at hv
    obtain ⟨a, ha, hform⟩ := hin e he hv.1
    have hgood := hv.2 a ha
    rcases withAncestors_ancestor doc [] e he a ha with h0 | ⟨e1, he1, h1⟩
    · cases h0
    · have hm : a.matchingForm = false := by
        apply hno
        unfold subtree
        rw [List.mem_map]
        exact ⟨e1, he1, h1⟩
      unfold Node.isForm at hform
      unfold Node.matchingForm at hm
      unfold Node.nonMatchingForm at hgood
      simp only [decide_eq_true_eq, decide_eq_false_iff_not, Bool.not_eq_true'] at hform hm hgood
      tauto
  rw [hnil]
  rfl

theorem hiddenFields_empty_witness :
    (∀ n ∈ subtree otherFormPage, n.matchingForm = false) ∧ f otherFormPage [] = [] :=
  ⟨by decide, hiddenFields_empty otherFormPage (by decide) (by decide)⟩

/-! ## The claims about `login` and about the notifications of the monitor loop -/

theorem Contains_infix (s substr : Bytes) (h : Contains s substr = true) : substr <:+: s := by
  unfold Contains Index at h
  cases hi : indexNat s substr with
  | none =>
    rw [hi] at h
    simp at h
  | some i =>
    have := (indexNat_eq_some substr s i).mp hi
    exact (infix_iff_drop substr s).mpr ⟨i, this.1⟩

/-- C7: `login` returns `nil` only if the body of the response to its POST contains
`Sign Out`; when that body lacks it, `login` returns an error. -/
theorem login_requires_sign_out (env : LoginEnv) (config : Config)
    (h : login env config = none) :
    ∃ formResp doc body,
      env.getForm = .ok formResp ∧ env.parse formResp.Body = .ok doc ∧
      env.post formResp.URL (formValuesOf (f doc []) config) = .ok body ∧
      bytes "Sign Out" <:+: body := by
  unfold login at h
  cases hform : env.getForm with
  | error err => rw [hform] at h; cases h
  | ok formResp =>
    rw [hform] at h
    simp only at h
    cases hparse : env.parse formResp.Body with
    | error err => rw [hparse] at h; cases h
    | ok doc =>
      rw [hparse] at h
      simp only at h
      cases hreq : env.newRequest formResp.URL with
      | some err => rw [hreq] at h; cases h
      | none =>
        rw [hreq] at h
        simp only at h
        cases hpost : env.post formResp.URL (formValuesOf (f doc []) config) with
        | error err => rw [hpost] at h; cases h
        | ok body =>
          rw [hpost] at h
          simp only at h
          refine ⟨formResp, doc, body, rfl, hparse, hpost, ?_⟩
          apply Contains_infix
          by_contra hc
          rw [Bool.not_eq_true] at hc
          rw [hc] at h
          simp at h

theorem login_requires_sign_out_witness :
    login signedInEnv someConfig = none ∧
    ∃ formResp doc body,
      signedInEnv.getForm = .ok formResp ∧ signedInEnv.parse formResp.Body = .ok doc ∧
      signedInEnv.post formResp.URL (formValuesOf (f doc []) someConfig) = .ok body ∧
      bytes "Sign Out" <:+: body :=
  ⟨by decide, login_requires_sign_out signedInEnv someConfig (by decide)⟩

theorem run_polling (c : Nat) : ∀ (ds : List Bytes) (s : Monitor), s.pc = PC.polling c →
    ∃ s1, Monitor.run s (ds.map (fun d => Input.fetchResult d none)) = some s1 ∧
      s1.pc = PC.polling c ∧
      s1.trace = s.trace ++ ((s.deliveryDate :: ds).zip ds).flatMap (pollActions c) ∧
      s1.deliveryDate = ds.getLast?.getD s.deliveryDate := by
  intro ds
  induction ds with
  | nil =>
    intro s hs
    exact ⟨s, rfl, hs, by simp, rfl⟩
  | cons d ds ih =>
    intro s hs
    by_cases hd : d = s.deliveryDate
    · have hstep : s.step (Input.fetchResult d none) =
          some { s with trace := s.trace ++ [.fetch c d none, .tick] } := by
        unfold Monitor.step
        simp [hs, hd]
      obtain ⟨s1, h1, h2, h3, h4⟩ := ih { s with trace := s.trace ++ [.fetch c d none, .tick] } hs
      refine ⟨s1, ?_, h2, ?_, ?_⟩
      · rw [List.map_cons, Monitor.run, hstep]
        exact h1
      · rw [h3]
        simp [pollActions, hd]
      · rw [h4]
        cases ds with
        | nil => simp [hd]
        | cons x tl => simp [List.getLast?_eq_getLast (x :: tl) (List.cons_ne_nil x tl)]
    · have hstep : s.step (Input.fetchResult d none) =
          some { s with deliveryDate := d, trace := s.trace ++ [.fetch c d none, .notify d, .tick] } := by
        unfold Monitor.step
        simp [hs, hd]
      obtain ⟨s1, h1, h2, h3, h4⟩ :=
        ih { s with deliveryDate := d, trace := s.trace ++ [.fetch c d none, .notify d, .tick] } hs
      refine ⟨s1, ?_, h2, ?_, ?_⟩
      · rw [List.map_cons, Monitor.run, hstep]
        exact h1
      · rw [h3]
        have hne : ¬ s.deliveryDate = d := fun h => hd h.symm
        simp [pollActions, hne]
      · rw [h4]
        cases ds with
        | nil => simp
        | cons x tl => simp [List.getLast?_eq_getLast (x :: tl) (List.cons_ne_nil x tl)]

theorem notifications_pollActions (c : Nat) : ∀ l : List (Bytes × Bytes),
    notifications (l.flatMap (pollActions c)) =
      (l.filter (fun p => decide (p.1 ≠ p.2))).map Prod.snd := by
  intro l
  induction l with
  | nil => rfl
  | cons p l ih =>
    rw [List.flatMap_cons, notifications, List.filterMap_append]
    rw [notifications] at ih
    rw [ih]
    by_cases hp : p.1 = p.2
    · simp [pollActions, hp]
    · simp [pollActions, hp]

/-- C8: after a successful login, when the monitor loop processes the successful fetch
results `ds`, starting with the empty last-known value, each fetch of a value that
differs from the value before it (the empty string before the first) is followed by a
notification for that value, and each fetch of a value equal to the one before it by
none; so the notifications printed are exactly the values that differ from the one
before them, in order; and the last-known value afterwards is the last fetched value. -/
theorem monitor_notifies_exactly_on_change (ds : List Bytes) :
    ∃ s, Monitor.run Monitor.initial
        (Input.loginResult none :: ds.map (fun d => Input.fetchResult d none)) = some s ∧
      s.trace = [Action.newSession 0, Action.login 0 none] ++
        ((([] : Bytes) :: ds).zip ds).flatMap (fun p =>
          if p.1 ≠ p.2 then [Action.fetch 0 p.2 none, Action.notify p.2, Action.tick]
          else [Action.fetch 0 p.2 none, Action.tick]) ∧
      notifications s.trace =
        (((([] : Bytes) :: ds).zip ds).filter (fun p => decide (p.1 ≠ p.2))).map Prod.snd ∧
      s.deliveryDate = ds.getLast?.getD [] := by
  have hstep : Monitor.initial.step (Input.loginResult none) =
      some ⟨[], .polling 0, 1, [.newSession 0, .login 0 none]⟩ := by
    rfl
  obtain ⟨s1, h1, _, h3, h4⟩ := run_polling 0 ds
    ⟨[], .polling 0, 1, [.newSession 0, .login 0 none]⟩ rfl
  have h5 : s1.trace = [Action.newSession 0, Action.login 0 none] ++
      ((([] : Bytes) :: ds).zip ds).flatMap (pollActions 0) := h3
  refine ⟨s1, ?_, h5, ?_, h4⟩
  · rw [Monitor.run, hstep]
    exact h1
  · rw [h5, notifications, List.filterMap_append]
    have h6 := notifications_pollActions 0 ((([] : Bytes) :: ds).zip ds)
    rw [notifications] at h6
    rw [h6]
    rfl

/-- The sequence of the specification: for the fetch results A, A, B, B, A the monitor
loop prints three notifications, for A, for B and for A again. -/
theorem monitor_AABBA :
    (Monitor.run Monitor.initial
      (Input.loginResult none ::
        [dateA, dateA, dateB, dateB, dateA].map (fun d => Input.fetchResult d none))).map
      (fun s => notifications s.trace) = some [dateA, dateB, dateA] := by
  decide

/-! ## The invariant of the monitor loop -/

theorem append_eq_split {α : Type} (t chunk pre post : List α) (a : α)
    (h : t ++ chunk = pre ++ a :: post) :
    (∃ post1, t = pre ++ a :: post1 ∧ post = post1 ++ chunk) ∨
    (∃ pre1, pre = t ++ pre1 ∧ chunk = pre1 ++ a :: post) := by
  rw [List.append_eq_append_iff] at h
  rcases h with ⟨a1, h1, h2⟩ | ⟨c1, h1, h2⟩
  · exact Or.inr ⟨a1, h1, h2⟩
  · cases c1 with
    | nil =>
      right
      refine ⟨[], by simpa using h1.symm, ?_⟩
      simpa using h2.symm
    | cons x c1 =>
      left
      rw [List.cons_append, List.cons.injEq] at h2
      obtain ⟨rfl, h3⟩ := h2
      exact ⟨c1, h1, h3⟩

theorem failedOn_session (b : Action) (c : Nat) (h : b.failedOn = some c) :
    b.session = some c := by
  cases b with
  | login id err => cases err <;> simp_all [Action.failedOn, Action.session]
  | fetch id d err => cases err <;> simp_all [Action.failedOn, Action.session]
  | _ => simp [Action.failedOn] at h

theorem step_chunk (s s1 : Monitor) (i : Input) (h : s.step i = some s1) :
    ∃ chunk, Monitor.Chunk s chunk s1 := by
  unfold Monitor.step at h
  cases i with
  | jarFailed =>
    cases hpc : s.pc with
    | top =>
      simp only [hpc, Option.some.injEq] at h
      subst h
      exact ⟨_, Monitor.Chunk.jarFailed hpc⟩
    | polling c => simp [hpc] at h
    | exited => simp [hpc] at h
  | loginResult err =>
    cases hpc : s.pc with
    | top =>
      cases err with
      | some e =>
        simp only [hpc, Option.some.injEq] at h
        subst h
        exact ⟨_, Monitor.Chunk.loginFailed e hpc⟩
      | none =>
        simp only [hpc, Option.some.injEq] at h
        subst h
        exact ⟨_, Monitor.Chunk.loggedIn hpc⟩
    | polling c => simp [hpc] at h
    | exited => simp [hpc] at h
  | fetchResult d err =>
    cases hpc : s.pc with
    | top => simp [hpc] at h
    | exited => simp [hpc] at h
    | polling c =>
      cases err with
      | some e =>
        simp only [hpc, Option.some.injEq] at h
        subst h
        exact ⟨_, Monitor.Chunk.fetchFailed c d e hpc⟩
      | none =>
        simp only [hpc] at h
        by_cases hd : d ≠ s.deliveryDate
        · rw [if_pos hd, Option.some.injEq] at h
          subst h
          exact ⟨_, Monitor.Chunk.changed c d hpc⟩
        · rw [if_neg hd, Option.some.injEq] at h
          subst h
          exact ⟨_, Monitor.Chunk.same c d hpc⟩

theorem split_two {α : Type} (x y a : α) (pre post : List α) (h : [x, y] = pre ++ a :: post) :
    (pre = [] ∧ a = x ∧ post = [y]) ∨ (pre = [x] ∧ a = y ∧ post = []) := by
  rcases pre with _ | ⟨p1, _ | ⟨p2, pre⟩⟩
  · simp at h; simp [h]
  · simp at h; simp [h]
  · simp at h

theorem split_three {α : Type} (x y z a : α) (pre post : List α)
    (h : [x, y, z] = pre ++ a :: post) :
    (pre = [] ∧ a = x ∧ post = [y, z]) ∨ (pre = [x] ∧ a = y ∧ post = [z]) ∨
    (pre = [x, y] ∧ a = z ∧ post = []) := by
  rcases pre with _ | ⟨p1, _ | ⟨p2, _ | ⟨p3, pre⟩⟩⟩
  · simp at h; simp [h]
  · simp at h; simp [h]
  · simp at h; simp [h]
  · simp at h

theorem last_ne (t pre : List Action) (mid : List Action) (a b : Action) (hab : a ≠ b) :
    t ++ (mid ++ [a]) ≠ pre ++ [b] := by
  intro h
  rw [← List.append_assoc] at h
  exact hab (List.singleton_inj.mp (List.append_inj_right' h rfl))

theorem Monitor.Inv.extend (s : Monitor) (h : s.Inv) (chunk : List Action) (pc1 : PC)
    (dd1 : Bytes) (n1 : Nat)
    (hn : s.sessions ≤ n1)
    (hbound : ∀ b ∈ chunk, ∀ c, b.session = some c → c < n1)
    (hpoll : ∀ c, pc1 = PC.polling c →
      Action.login c none ∈ s.trace ++ chunk ∧
      (∀ b ∈ s.trace ++ chunk, b.failedOn ≠ some c) ∧
      ∀ pre, s.trace ++ chunk ≠ pre ++ [Action.sleep])
    (hrun : pc1 ≠ PC.exited → Action.jarError ∉ chunk)
    (hnojar : Action.jarError ∉ s.trace)
    (hreuse : NoReuse chunk)
    (hx : ∀ b ∈ s.trace, ∀ a ∈ chunk, ∀ c, b.failedOn = some c → a.requestOn ≠ some c)
    (hfetch : ∀ pre1 c d err post, chunk = pre1 ++ Action.fetch c d err :: post →
      Action.login c none ∈ s.trace ++ pre1)
    (hafter : (∃ pre, s.trace = pre ++ [Action.sleep]) →
      chunk = [Action.jarError, Action.exit 2] ∨
      ∃ m err rest, chunk = Action.newSession m :: Action.login m err :: rest ∧
        ∀ b ∈ s.trace, b.session ≠ some m)
    (hfail : ∀ pre1 a post c, chunk = pre1 ++ a :: post → a.failedOn = some c →
      post = [Action.sleep]) :
    Monitor.Inv { deliveryDate := dd1, pc := pc1, sessions := n1, trace := s.trace ++ chunk } := by
  refine ⟨?_, ?_, ?_, ?_, ?_, ?_, ?_, ?_⟩
  · intro b hb c hc
    rcases List.mem_append.mp hb with hb | hb
    · exact Nat.lt_of_lt_of_le (h.bound b hb c hc) hn
    · exact hbound b hb c hc
  · intro c hc
    exact (hpoll c hc).1
  · intro c hc
    exact (hpoll c hc).2.1
  · intro c hc
    exact (hpoll c hc).2.2
  · intro hc hmem
    rcases List.mem_append.mp hmem with hb | hb
    · exact hnojar hb
    · exact hrun hc hb
  · exact List.pairwise_append.mpr ⟨h.noReuse, hreuse, hx⟩
  · intro pre c d err post heq
    rcases append_eq_split _ _ _ _ _ heq with ⟨post1, h1, _⟩ | ⟨pre1, h1, h2⟩
    · exact h.fetchAfterLogin pre c d err post1 h1
    · rw [h1]
      exact hfetch pre1 c d err post h2
  · intro pre a post c heq hf
    rcases append_eq_split _ _ _ _ _ heq with ⟨post1, h1, h2⟩ | ⟨pre1, _, h2⟩
    · rcases h.freshAfterFailure pre a post1 c h1 hf with h3 | h3 | ⟨m, err, rest, h3, h4⟩
      · subst h3
        have hends : ∃ p, s.trace = p ++ [Action.sleep] := ⟨pre ++ [a], by rw [h1]; simp⟩
        rcases hafter hends with h5 | ⟨m, err, rest, h5, h6⟩
        · right; left
          rw [h2, h5]
          rfl
        · right; right
          refine ⟨m, err, rest, by rw [h2, h5]; rfl, ?_⟩
          intro b hb
          apply h6
          rw [h1]
          rcases List.mem_append.mp hb with hb | hb
          · exact List.mem_append_left _ hb
          · rw [List.mem_singleton] at hb
            subst hb
            simp
      · exfalso
        apply hnojar
        rw [h1, h3]
        simp
      · right; right
        exact ⟨m, err, rest ++ chunk, by rw [h2, h3]; rfl, h4⟩
    · left
      exact hfail pre1 a post c h2 hf

theorem Monitor.Inv.initial : Monitor.initial.Inv := by
  refine ⟨?_, ?_, ?_, ?_, ?_, ?_, ?_, ?_⟩
  · intro b hb; cases hb
  · intro c hc; cases hc
  · intro c hc; cases hc
  · intro c hc; cases hc
  · intro _ hb; cases hb
  · exact List.Pairwise.nil
  · intro pre c d err post heq
    simp [Monitor.initial] at heq
  · intro pre a post c heq
    simp [Monitor.initial] at heq

theorem Monitor.Inv.chunk (s s1 : Monitor) (chunk : List Action) (h : s.Inv)
    (hc : Monitor.Chunk s chunk s1) : s1.Inv := by
  have hfresh : ∀ b ∈ s.trace, b.session ≠ some s.sessions := by
    intro b hb hs
    exact Nat.lt_irrefl _ (h.bound b hb _ hs)
  cases hc with
  | jarFailed hpc =>
    have hrun : Action.jarError ∉ s.trace := h.running (by rw [hpc]; simp)
    apply Monitor.Inv.extend s h _ _ _ _ (Nat.le_refl _)
    · intro b hb c hs
      simp at hb
      rcases hb with rfl | rfl <;> simp [Action.session] at hs
    · intro c hc; cases hc
    · intro hc; exact absurd rfl hc
    · exact hrun
    · simp [NoReuse, Action.requestOn]
    · intro b _ a ha c _
      simp at ha
      rcases ha with rfl | rfl <;> simp [Action.requestOn]
    · intro pre1 c d err post heq
      rcases split_two _ _ _ _ _ heq with ⟨_, h2, _⟩ | ⟨_, h2, _⟩ <;> cases h2
    · intro _; exact Or.inl rfl
    · intro pre1 a post c heq hf
      rcases split_two _ _ _ _ _ heq with ⟨_, rfl, _⟩ | ⟨_, rfl, _⟩ <;>
        simp [Action.failedOn] at hf
  | loginFailed e hpc =>
    have hrun : Action.jarError ∉ s.trace := h.running (by rw [hpc]; simp)
    apply Monitor.Inv.extend s h _ _ _ _ (Nat.le_succ _)
    · intro b hb c hs
      simp at hb
      rcases hb with rfl | rfl | rfl <;> simp [Action.session] at hs <;> omega
    · intro c hc; cases hc
    · intro _; simp
    · exact hrun
    · simp [NoReuse, Action.requestOn, Action.failedOn]
    · intro b hb a ha c hf
      simp at ha
      rcases ha with rfl | rfl | rfl <;> simp [Action.requestOn]
      rintro rfl
      exact hfresh b hb (failedOn_session b _ hf)
    · intro pre1 c d err post heq
      rcases split_three _ _ _ _ _ _ heq with ⟨_, h2, _⟩ | ⟨_, h2, _⟩ | ⟨_, h2, _⟩ <;> cases h2
    · intro _
      exact Or.inr ⟨_, _, _, rfl, hfresh⟩
    · intro pre1 a post c heq hf
      rcases split_three _ _ _ _ _ _ heq with ⟨_, rfl, _⟩ | ⟨_, rfl, h3⟩ | ⟨_, rfl, _⟩
      · simp [Action.failedOn] at hf
      · exact h3
      · simp [Action.failedOn] at hf
  | loggedIn hpc =>
    have hrun : Action.jarError ∉ s.trace := h.running (by rw [hpc]; simp)
    apply Monitor.Inv.extend s h _ _ _ _ (Nat.le_succ _)
    · intro b hb c hs
      simp at hb
      rcases hb with rfl | rfl <;> simp [Action.session] at hs <;> omega
    · intro c hc
      cases hc
      refine ⟨by simp, ?_, ?_⟩
      · intro b hb hf
        rcases List.mem_append.mp hb with hb | hb
        · exact hfresh b hb (failedOn_session b _ hf)
        · simp at hb
          rcases hb with rfl | rfl <;> simp [Action.failedOn] at hf
      · intro pre
        exact last_ne s.trace pre [Action.newSession s.sessions] _ _ (by simp)
    · intro _; simp
    · exact hrun
    · simp [NoReuse, Action.requestOn, Action.failedOn]
    · intro b hb a ha c hf
      simp at ha
      rcases ha with rfl | rfl <;> simp [Action.requestOn]
      rintro rfl
      exact hfresh b hb (failedOn_session b _ hf)
    · intro pre1 c d err post heq
      rcases split_two _ _ _ _ _ heq with ⟨_, h2, _⟩ | ⟨_, h2, _⟩ <;> cases h2
    · intro _
      exact Or.inr ⟨_, _, _, rfl, hfresh⟩
    · intro pre1 a post c heq hf
      rcases split_two _ _ _ _ _ heq with ⟨_, rfl, _⟩ | ⟨_, rfl, _⟩ <;>
        simp [Action.failedOn] at hf
  | fetchFailed c d e hpc =>
    have hrun : Action.jarError ∉ s.trace := h.running (by rw [hpc]; simp)
    apply Monitor.Inv.extend s h _ _ _ _ (Nat.le_refl _)
    · intro b hb c1 hs
      simp at hb
      rcases hb with rfl | rfl
      · simp [Action.session] at hs
        subst hs
        exact h.bound _ (h.loggedIn c hpc) c rfl
      · simp [Action.session] at hs
    · intro c1 hc; cases hc
    · intro _; simp
    · exact hrun
    · simp [NoReuse, Action.requestOn, Action.failedOn]
    · intro b hb a ha c1 hf
      simp at ha
      rcases ha with rfl | rfl <;> simp [Action.requestOn]
      rintro rfl
      exact h.intact c hpc b hb hf
    · intro pre1 c1 d1 err post heq
      rcases split_two _ _ _ _ _ heq with ⟨rfl, h2, _⟩ | ⟨_, h2, _⟩
      · cases h2
        simpa using h.loggedIn c hpc
      · cases h2
    · intro hends
      obtain ⟨pre, hpre⟩ := hends
      exact absurd hpre (h.awake c hpc pre)
    · intro pre1 a post c1 heq hf
      rcases split_two _ _ _ _ _ heq with ⟨_, rfl, h3⟩ | ⟨_, rfl, _⟩
      · exact h3
      · simp [Action.failedOn] at hf
  | changed c d hpc =>
    have hrun : Action.jarError ∉ s.trace := h.running (by rw [hpc]; simp)
    apply Monitor.Inv.extend s h _ _ _ _ (Nat.le_refl _)
    · intro b hb c1 hs
      simp at hb
      rcases hb with rfl | rfl | rfl
      · simp [Action.session] at hs
        subst hs
        exact h.bound _ (h.loggedIn c hpc) c rfl
      · simp [Action.session] at hs
      · simp [Action.session] at hs
    · intro c1 hc
      cases hc
      refine ⟨List.mem_append_left _ (h.loggedIn c hpc), ?_, ?_⟩
      · intro b hb hf
        rcases List.mem_append.mp hb with hb | hb
        · exact h.intact c hpc b hb hf
        · simp at hb
          rcases hb with rfl | rfl | rfl <;> simp [Action.failedOn] at hf
      · intro pre
        exact last_ne s.trace pre [Action.fetch c d none, Action.notify d] _ _ (by simp)
    · intro _; simp
    · exact hrun
    · simp [NoReuse, Action.requestOn, Action.failedOn]
    · intro b hb a ha c1 hf
      simp at ha
      rcases ha with rfl | rfl | rfl <;> simp [Action.requestOn]
      rintro rfl
      exact h.intact c hpc b hb hf
    · intro pre1 c1 d1 err post heq
      rcases split_three _ _ _ _ _ _ heq with ⟨rfl, h2, _⟩ | ⟨_, h2, _⟩ | ⟨_, h2, _⟩
      · cases h2
        simpa using h.loggedIn c hpc
      · cases h2
      · cases h2
    · intro hends
      obtain ⟨pre, hpre⟩ := hends
      exact absurd hpre (h.awake c hpc pre)
    · intro pre1 a post c1 heq hf
      rcases split_three _ _ _ _ _ _ heq with ⟨_, rfl, _⟩ | ⟨_, rfl, _⟩ | ⟨_, rfl, _⟩ <;>
        simp [Action.failedOn] at hf
  | same c d hpc =>
    have hrun : Action.jarError ∉ s.trace := h.running (by rw [hpc]; simp)
    apply Monitor.Inv.extend s h _ _ _ _ (Nat.le_refl _)
    · intro b hb c1 hs
      simp at hb
      rcases hb with rfl | rfl
      · simp [Action.session] at hs
        subst hs
        exact h.bound _ (h.loggedIn c hpc) c rfl
      · simp [Action.session] at hs
    · intro c1 hc
      cases hc
      refine ⟨List.mem_append_left _ (h.loggedIn c hpc), ?_, ?_⟩
      · intro b hb hf
        rcases List.mem_append.mp hb with hb | hb
        · exact h.intact c hpc b hb hf
        · simp at hb
          rcases hb with rfl | rfl <;> simp [Action.failedOn] at hf
      · intro pre
        exact last_ne s.trace pre [Action.fetch c d none] _ _ (by simp)
    · intro _; simp
    · exact hrun
    · simp [NoReuse, Action.requestOn, Action.failedOn]
    · intro b hb a ha c1 hf
      simp at ha
      rcases ha with rfl | rfl <;> simp [Action.requestOn]
      rintro rfl
      exact h.intact c hpc b hb hf
    · intro pre1 c1 d1 err post heq
      rcases split_two _ _ _ _ _ heq with ⟨rfl, h2, _⟩ | ⟨_, h2, _⟩
      · cases h2
        simpa using h.loggedIn c hpc
      · cases h2
    · intro hends
      obtain ⟨pre, hpre⟩ := hends
      exact absurd hpre (h.awake c hpc pre)
    · intro pre1 a post c1 heq hf
      rcases split_two _ _ _ _ _ heq with ⟨_, rfl, _⟩ | ⟨_, rfl, _⟩ <;>
        simp [Action.failedOn] at hf

theorem Monitor.Inv.run : ∀ (ins : List Input) (s s1 : Monitor), s.Inv →
    s.run ins = some s1 → s1.Inv := by
  intro ins
  induction ins with
  | nil =>
    intro s s1 h hrun
    rw [Monitor.run, Option.some.injEq] at hrun
    rw [← hrun]
    exact h
  | cons i rest ih =>
    intro s s1 h hrun
    rw [Monitor.run] at hrun
    cases hstep : s.step i with
    | none => rw [hstep] at hrun; cases hrun
    | some s2 =>
      rw [hstep] at hrun
      obtain ⟨chunk, hc⟩ := step_chunk s s2 i hstep
      exact ih s2 s1 (Monitor.Inv.chunk s s2 chunk h hc) hrun

/-! ## The claim about the sessions of the monitor loop -/

/-- C9: in every state the monitor loop reaches, no request was made on a session after
a request on it had failed; every `getDeliveryDate` was made on a session on which a
`login` had succeeded; and what follows a failed request is the sleep, then the
construction of a session that did not exist before and a `login` on it (or the exit of
the process when `cookiejar.New` fails). -/
theorem monitor_never_reuses_failed_session (ins : List Input) (s : Monitor)
    (h : Monitor.run Monitor.initial ins = some s) :
    (s.trace.Pairwise (fun earlier later =>
      ∀ c, earlier.failedOn = some c → later.requestOn ≠ some c)) ∧
    (∀ pre c d err post, s.trace = pre ++ Action.fetch c d err :: post →
      Action.login c none ∈ pre) ∧
    (∀ pre a post c, s.trace = pre ++ a :: post → a.failedOn = some c →
      post = [Action.sleep] ∨
      post = [Action.sleep, Action.jarError, Action.exit 2] ∨
      ∃ m err rest,
        post = Action.sleep :: Action.newSession m :: Action.login m err :: rest ∧
        ∀ b ∈ pre ++ [a], b.session ≠ some m) := by
  have hinv := Monitor.Inv.run ins Monitor.initial s Monitor.Inv.initial h
  exact ⟨hinv.noReuse, hinv.fetchAfterLogin, hinv.freshAfterFailure⟩

theorem monitor_never_reuses_failed_session_witness :
    Monitor.run Monitor.initial someRun = some someRunEnd ∧
    (someRunEnd.trace.Pairwise (fun earlier later =>
      ∀ c, earlier.failedOn = some c → later.requestOn ≠ some c)) ∧
    (∀ pre c d err post, someRunEnd.trace = pre ++ Action.fetch c d err :: post →
      Action.login c none ∈ pre) ∧
    (∀ pre a post c, someRunEnd.trace = pre ++ a :: post → a.failedOn = some c →
      post = [Action.sleep] ∨
      post = [Action.sleep, Action.jarError, Action.exit 2] ∨
      ∃ m err rest,
        post = Action.sleep :: Action.newSession m :: Action.login m err :: rest ∧
        ∀ b ∈ pre ++ [a], b.session ≠ some m) :=
  ⟨by decide, monitor_never_reuses_failed_session someRun someRunEnd (by decide)⟩

end TeslaDeliveryDate
